import Mathlib

/-!
Verification development for the Carbon-Credit-Cobenefit-Evaluator backend.

The definitions below are shallow embeddings of the Python source under
`src/`: Python dicts become insertion-ordered association lists, floats
become exact rationals (`ℚ`), `round(x, n)` becomes round-half-to-even on
rationals, raised exceptions become `Except` errors, and the external
LLM / embedding / classifier services are black-box oracle parameters
(they are out of scope per the spec, which specifies them only at their
boundary).  Each definition names the Python function it embeds.
-/

namespace CCEval

/-- Python's `round()` (banker's rounding, round half to even) on `ℚ`,
returning an integer.  Used by `round(x)` / `int(round(x))` call sites. -/
def pythonRound (x : ℚ) : ℤ :=
  let fl := ⌊x⌋
  let f := x - fl
  if f < 1/2 then fl
  else if 1/2 < f then fl + 1
  else if fl % 2 = 0 then fl else fl + 1

/-- Python's `round(x, 4)` on `ℚ`. -/
def round4 (x : ℚ) : ℚ := (pythonRound (x * 10000) : ℚ) / 10000

/-- Python's `round(x, 2)` on `ℚ`. -/
def round2 (x : ℚ) : ℚ := (pythonRound (x * 100) : ℚ) / 100

/-- Python's `round(x, 3)` on `ℚ`. -/
def round3 (x : ℚ) : ℚ := (pythonRound (x * 1000) : ℚ) / 1000

/-- Split a character list into maximal whitespace-free words (the words of
Python's argumentless `str.split()`, which ignores leading, trailing and
repeated whitespace).  `acc` holds the reversed current word. -/
def wordsAux : List Char → List Char → List (List Char)
  | [], acc => if acc = [] then [] else [acc.reverse]
  | c :: cs, acc =>
      if c.isWhitespace then
        if acc = [] then wordsAux cs [] else acc.reverse :: wordsAux cs []
      else wordsAux cs (c :: acc)

/-- Join words with single spaces (Python's `" ".join(words)`). -/
def joinSpaces : List (List Char) → List Char
  | [] => []
  | [w] => w
  | w :: ws => w ++ ' ' :: joinSpaces ws

/-- Embeds `_normalize_sentence` from `modules/assessments/sdg1_assessor.py`:
`" ".join((s or "").strip().lower().split())` — case-fold, split on
whitespace runs (the argumentless `split` also covers the `strip`),
re-join with single spaces.  Implemented on the character list so it is
kernel-computable. -/
def normalizeSentence (s : String) : String :=
  String.mk (joinSpaces (wordsAux (s.data.map Char.toLower) []))

/-- Association-list lookup with default: Python's `d.get(k, default)`. -/
def dictGet {α : Type} (m : List (String × α)) (k : String) (d : α) : α :=
  match m.find? (fun p => p.1 == k) with
  | some p => p.2
  | none => d

/-- Association-list lookup: Python's `d.get(k)` returning `None` when absent. -/
def dictGetOpt {α : Type} (m : List (String × α)) (k : String) : Option α :=
  match m.find? (fun p => p.1 == k) with
  | some p => some p.2
  | none => none

/-- Python dict assignment `d[k] = v`: replace in place if the key exists,
otherwise append (insertion order preserved). -/
def dictSet {α : Type} : List (String × α) → String → α → List (String × α)
  | [], k, v => [(k, v)]
  | (k', v') :: rest, k, v =>
      if k' == k then (k, v) :: rest else (k', v') :: dictSet rest k v

/-- First-occurrence key list: the iteration order of a Python dict or set
built by inserting the elements of `l` in order. -/
def dedupKeys (l : List String) : List String :=
  l.foldl (fun ks k => if k ∈ ks then ks else ks ++ [k]) []

/-- One evidence item `{sentence, probability}` of a Rule Evidence list. -/
structure EvidenceItem where
  sentence : String
  probability : ℚ
  deriving Repr, DecidableEq

/-- Stable insertion (descending by `key`) used to model Python's stable
`list.sort(key=..., reverse=True)`: the new element goes after all
already-placed elements whose key is ≥ its own. -/
def insertByDesc {α : Type} (key : α → ℚ) (x : α) : List α → List α
  | [] => [x]
  | y :: ys => if key y < key x then x :: y :: ys else y :: insertByDesc key x ys

/-- Stable descending sort by `key` (models Python `list.sort(key=...,
reverse=True)`, which is stable). -/
def sortByKeyDesc {α : Type} (key : α → ℚ) (l : List α) : List α :=
  l.foldl (fun acc x => insertByDesc key x acc) []

/-! ## Scoring Engine (`modules/assessments/sdg1_assessor.py`) -/

/-- Embeds the inner loop of `_filter_unique_rule_evidence`
(`sdg1_assessor.py` lines 66-81): walk the rule's evidence items in
order; skip items below the level threshold; skip items whose normalized
sentence is empty or already seen; keep the rest with the probability
rounded to 4 decimals, remembering the normalized key. -/
def keepPass (thr : ℚ) : List EvidenceItem → List String → List EvidenceItem
  | [], _ => []
  | it :: rest, seen =>
      if it.probability < thr then keepPass thr rest seen
      else
        let key := normalizeSentence it.sentence
        if key = "" ∨ key ∈ seen then keepPass thr rest seen
        else ⟨it.sentence, round4 it.probability⟩ :: keepPass thr rest (key :: seen)

/-- Per-level unique-sentence totals (`counts_by_level`, initialised to
`{"OUTPUT": 0, "OUTCOME": 0, "IMPACT": 0}`). -/
structure LevelCounts where
  OUTPUT : Nat
  OUTCOME : Nat
  IMPACT : Nat
  deriving Repr, DecidableEq

/-- Add `n` to the component of `counts_by_level` named by `level`. -/
def LevelCounts.bump (c : LevelCounts) (level : String) (n : Nat) : LevelCounts :=
  if level = "OUTPUT" then { c with OUTPUT := c.OUTPUT + n }
  else if level = "OUTCOME" then { c with OUTCOME := c.OUTCOME + n }
  else { c with IMPACT := c.IMPACT + n }

/-- Result triple of `_filter_unique_rule_evidence`. -/
structure FilterResult where
  filtered : List (String × List EvidenceItem)
  counts_by_rule : List (String × Nat)
  counts_by_level : LevelCounts
  deriving Repr, DecidableEq

/-- Embeds `_filter_unique_rule_evidence` (`sdg1_assessor.py` lines 44-90):
for each rule in insertion order, look up its level, skip rules outside
the OUTPUT/OUTCOME/IMPACT ontology, keep threshold-passing items deduped
by normalized sentence (`keepPass`), and if any survive sort them by
probability descending (stably) and record the counts. -/
def filterUniqueRuleEvidence
    (rtl : List (String × String)) (thresholds : List (String × ℚ)) :
    List (String × List EvidenceItem) → FilterResult
  | [] => ⟨[], [], ⟨0, 0, 0⟩⟩
  | (rule, items) :: rest =>
      let r := filterUniqueRuleEvidence rtl thresholds rest
      match dictGetOpt rtl rule with
      | none => r
      | some level =>
          if level ∈ ["OUTPUT", "OUTCOME", "IMPACT"] then
            let thr := dictGet thresholds level 0
            let kept := keepPass thr items []
            if kept = [] then r
            else
              { filtered := (rule, sortByKeyDesc EvidenceItem.probability kept) :: r.filtered
                counts_by_rule := (rule, kept.length) :: r.counts_by_rule
                counts_by_level := r.counts_by_level.bump level kept.length }
          else r

/-- Embeds `_invert_rules` (`sdg1_assessor.py` lines 26-41): flatten the
`{level: {rule_code: ...}}` block into a `rule_code → level` mapping. -/
def invertRules (block : List (String × List String)) : List (String × String) :=
  block.foldl (fun m p => p.2.foldl (fun m r => dictSet m r p.1) m) []

/-- Embeds `_weighted_sum` (`sdg1_assessor.py` lines 93-101):
`Σ count[rule] × rule_weights.get(rule, 1.0)`. -/
def weightedSum (counts : List (String × Nat)) (rule_weights : List (String × ℚ)) : ℚ :=
  counts.foldl (fun total p => total + (p.2 : ℚ) * dictGet rule_weights p.1 1) 0

/-- Embeds `_cap_norm` (`sdg1_assessor.py` lines 104-108):
`min(x, cap) / cap`, and `0` when `cap ≤ 0`. -/
def capNorm (x cap : ℚ) : ℚ :=
  if cap ≤ 0 then 0 else min x cap / cap

/-- The gate configuration read from `scoring_cfg["gates"]`; each field
holds the configured value, with `.get` defaults given by
`defaultGates` below. -/
structure GatesCfg where
  core_outputs : List String
  outcome_penalty_if_no_core_outputs : ℚ
  min_outcome_for_impact : Nat
  impact_penalty_if_low_outcomes : ℚ
  deriving Repr, DecidableEq

/-- The `.get(...)` defaults of the gate block in `assess_sdg1_for_project`
(`sdg1_assessor.py` lines 191-202): core outputs `["O2","O3","O5"]`,
outcome penalty `0.5`, minimum outcomes for impact `3`, impact penalty `0.4`. -/
def defaultGates : GatesCfg :=
  { core_outputs := ["O2", "O3", "O5"]
    outcome_penalty_if_no_core_outputs := 1/2
    min_outcome_for_impact := 3
    impact_penalty_if_low_outcomes := 2/5 }

/-- The per-SDG scoring configuration block (`scoring_cfg` in
`assess_sdg1_for_project`); the dict-valued fields keep Python-dict
`get`-with-default semantics via `dictGet` at the use sites. -/
structure ScoringCfg where
  thresholds : List (String × ℚ)
  rule_weights : List (String × ℚ)
  caps : List (String × ℚ)
  level_mix : List (String × ℚ)
  gates : GatesCfg
  top_evidence_per_rule : Nat
  deriving Repr, DecidableEq

/-- The values computed by the scoring steps of `assess_sdg1_for_project`
(`sdg1_assessor.py` lines 171-273), before JSON serialization.  Fields
whose JSON counterparts are rounded on output keep their internal
(unrounded) values here; the rounding applied by the `result` dict is
stated where a claim mentions the reported value. -/
structure AssessOutcome where
  filtered : List (String × List EvidenceItem)
  counts_by_rule : List (String × Nat)
  counts_by_level : LevelCounts
  core_output_count : Nat
  raw_O : ℚ
  raw_R : ℚ
  raw_I : ℚ
  outcome_weight : ℚ
  impact_weight : ℚ
  penalties : List String
  norm_O : ℚ
  norm_R : ℚ
  norm_I : ℚ
  final_0_1 : ℚ
  final_0_100 : ℚ
  top_evidence : List (String × List EvidenceItem)
  deriving Repr, DecidableEq

/-- Embeds the pure scoring computation of `assess_sdg1_for_project`
(`sdg1_assessor.py` lines 171-228): threshold filter + dedupe, per-level
weighted raw sums, the two causal gates, cap normalization, the weighted
mix, scaling to 0-100, and top-N evidence per rule. -/
def assessCore (satisfied_rules : List (String × List EvidenceItem))
    (rule_to_level : List (String × String)) (cfg : ScoringCfg) : AssessOutcome :=
  -- Step 1: filter + unique evidence per rule using level thresholds
  let fr := filterUniqueRuleEvidence rule_to_level cfg.thresholds satisfied_rules
  -- Split rule counts by level
  let counts_O := fr.counts_by_rule.filter (fun p => dictGetOpt rule_to_level p.1 = some "OUTPUT")
  let counts_R := fr.counts_by_rule.filter (fun p => dictGetOpt rule_to_level p.1 = some "OUTCOME")
  let counts_I := fr.counts_by_rule.filter (fun p => dictGetOpt rule_to_level p.1 = some "IMPACT")
  -- Step 2: weighted raw sums per level
  let raw_O := weightedSum counts_O cfg.rule_weights
  let raw_R := weightedSum counts_R cfg.rule_weights
  let raw_I := weightedSum counts_I cfg.rule_weights
  -- Step 3: causal gates (`core_outputs` is a Python set, so duplicate
  -- entries in the configured list are collapsed before summing)
  let core_output_count :=
    ((dedupKeys cfg.gates.core_outputs).map (fun r => dictGet fr.counts_by_rule r 0)).sum
  let outcomeGate := fr.counts_by_level.OUTCOME > 0 ∧ core_output_count = 0
  let outcome_weight : ℚ :=
    if fr.counts_by_level.OUTCOME > 0 ∧ core_output_count = 0 then
      cfg.gates.outcome_penalty_if_no_core_outputs
    else 1
  let impactGate :=
    fr.counts_by_level.IMPACT > 0 ∧ fr.counts_by_level.OUTCOME < cfg.gates.min_outcome_for_impact
  let impact_weight : ℚ :=
    if fr.counts_by_level.IMPACT > 0 ∧ fr.counts_by_level.OUTCOME < cfg.gates.min_outcome_for_impact then
      cfg.gates.impact_penalty_if_low_outcomes
    else 1
  let penalties :=
    (if outcomeGate then ["Outcome downweighted: outcomes present but core outputs missing"] else [])
      ++ (if impactGate then
            ["Impact downweighted: outcomes < " ++ toString cfg.gates.min_outcome_for_impact]
          else [])
  let gated_R := raw_R * outcome_weight
  let gated_I := raw_I * impact_weight
  -- Step 4: cap normalization per level
  let cap_O := dictGet cfg.caps "OUTPUT" 30
  let cap_R := dictGet cfg.caps "OUTCOME" 25
  let cap_I := dictGet cfg.caps "IMPACT" 10
  let norm_O := capNorm raw_O cap_O
  let norm_R := capNorm gated_R cap_R
  let norm_I := capNorm gated_I cap_I
  -- Step 5: final mix (0..1) then to 0..100
  let mix_O := dictGet cfg.level_mix "OUTPUT" (3/10)
  let mix_R := dictGet cfg.level_mix "OUTCOME" (2/5)
  let mix_I := dictGet cfg.level_mix "IMPACT" (3/10)
  let final_0_1 := norm_O * mix_O + norm_R * mix_R + norm_I * mix_I
  { filtered := fr.filtered
    counts_by_rule := fr.counts_by_rule
    counts_by_level := fr.counts_by_level
    core_output_count := core_output_count
    raw_O := raw_O, raw_R := raw_R, raw_I := raw_I
    outcome_weight := outcome_weight
    impact_weight := impact_weight
    penalties := penalties
    norm_O := norm_O, norm_R := norm_R, norm_I := norm_I
    final_0_1 := final_0_1
    final_0_100 := round2 (final_0_1 * 100)
    top_evidence := fr.filtered.map (fun p => (p.1, p.2.take cfg.top_evidence_per_rule)) }

/-! ## Rule Classifier Runner (`modules/sdg_inference.py`) -/

/-- The appends that one sentence `t` makes to the per-rule list of label
`lab` inside the inference loop of `run_sdg_models_for_project`
(`sdg_inference.py` lines 109-133): for each position `i` with
`i < len(labels)` (the `break`) and `probs[i] ≥ threshold` (both covered
by `zip` plus the comparison), record `{sentence: t, probability:
round(prob, 4)}`.  The classifier itself is the black-box `probs`
argument. -/
def sentenceMatchesFor (lab : String) (labels : List String) (thr : ℚ)
    (t : String) (probs : List ℚ) : List EvidenceItem :=
  (labels.zip probs).filterMap
    (fun p => if p.1 = lab ∧ thr ≤ p.2 then some ⟨t, round4 p.2⟩ else none)

/-- Embeds the per-SDG body of `run_sdg_models_for_project`
(`sdg_inference.py` lines 107-137): `rule_evidence = {lab: [] for lab in
labels}` (distinct keys in first-occurrence order), each sentence appends
its qualifying matches in input order, and rules with no matches are
dropped (`{k: v for k, v in rule_evidence.items() if v}`).  `classify` is
the external trained classifier (sentence → per-label sigmoid
probabilities). -/
def runRuleEvidence (labels : List String) (thr : ℚ)
    (classify : String → List ℚ) (sentences : List String) :
    List (String × List EvidenceItem) :=
  ((dedupKeys labels).map
      (fun lab => (lab, (sentences.map (fun t => sentenceMatchesFor lab labels thr t (classify t))).flatten)))
    |>.filter (fun p => !(p.2 == []))

/-! ## Factor Matcher (`modules/factor_matching.py`) -/

/-- Embeds `np.argmax(row)`: the first index attaining the maximum (0 for an
empty row, which the source never reaches). -/
def argmaxIdx (row : List ℚ) : Nat :=
  (List.range row.length).foldl
    (fun best i => if row.getD best 0 < row.getD i 0 then i else best) 0

/-- Embeds `np.argsort(-row)`: indices sorted by similarity descending.  NumPy's
default sort leaves the order of tied values unspecified; this model
breaks ties by position (stable), and the claims below only evaluate it
on rows with distinct values. -/
def argsortDesc (row : List ℚ) : List Nat :=
  sortByKeyDesc (fun i => row.getD i 0) (List.range row.length)

/-- The prototype indices a sentence is assigned through in
`match_factors` (`factor_matching.py` lines 87-108): with `top_k == 1`
the single `argmax` index when its similarity is ≥ `min_sim`; otherwise
the first `top_k` indices of `argsort(-row)`, dropping those whose
similarity is below `min_sim` (`if score < min_sim: continue`). -/
def selectedIdxs (row : List ℚ) (top_k : Nat) (min_sim : ℚ) : List Nat :=
  if top_k = 1 then
    let j := argmaxIdx row
    if min_sim ≤ row.getD j 0 then [j] else []
  else ((argsortDesc row).take top_k).filter (fun j => !(row.getD j 0 < min_sim))

/-- Embeds `match_factors` (`factor_matching.py` lines 34-126).  `labels`
is `FACTOR_LABELS` (one factor name per prototype row), `simRow t` the
cosine-similarity row of sentence `t` against the prototype matrix (the
embedding service and dot product are the black box).  Each factor
accumulates `(score, sentence)` pairs — appends happen in sentence
order, then selection order, which per factor is exactly this per-key
grouping — and non-empty factors are emitted with their pairs stably
sorted by score descending, keeping only the sentence texts. -/
def matchFactors (labels : List String) (simRow : String → List ℚ)
    (top_k : Nat) (min_sim : ℚ) (sentences : List String) :
    List (String × List String) :=
  ((dedupKeys labels).map (fun f => (f,
      (sentences.map (fun t =>
        (selectedIdxs (simRow t) top_k min_sim).filterMap
          (fun j => if labels.getD j "" = f then some ((simRow t).getD j 0, t) else none))).flatten)))
    |>.filter (fun p => !(p.2 == []))
    |>.map (fun p => (p.1, (sortByKeyDesc Prod.fst p.2).map Prod.snd))

/-! ## Evidence Refiner (`modules/evidence_refiner.py`) -/

/-- Embeds `_chunk_sentences` (`evidence_refiner.py` lines 31-36):
`sentences[i:i+max_per_chunk]` for `i = 0, k+1, 2(k+1), ...` — written
with chunk size `k + 1` so the recursion visibly consumes input.  The
source's default `max_per_chunk = 25` corresponds to `k = 24`. -/
def chunkList (k : Nat) : List String → List (List String)
  | [] => []
  | x :: xs => ((x :: xs).take (k + 1)) :: chunkList k ((x :: xs).drop (k + 1))
  termination_by l => l.length
  decreasing_by simp [List.length_drop]; omega

/-- One observed behaviour of the rewriting service for one chunk, at the
three points where `refine_evidence` / `_fallback_refine_chunk` consume
it: `jsonCleaned` is the parsed `"cleaned"` list of the JSON tier (`none`
when parsing fails or the value is not a list); `fallbackLines` the
stripped non-empty lines of the line-by-line tier; `perSentence i s` the
first non-empty line of the per-sentence tier's response for sentence `s`
at position `i` (`""` when the model returns nothing).  The service is
external (network LLM), so the claims quantify over all of these. -/
structure ChunkResponse where
  jsonCleaned : Option (List String)
  fallbackLines : List String
  perSentence : Nat → String → String

/-- Embeds `_fallback_refine_chunk` (`evidence_refiner.py` lines 39-124):
if the line-by-line tier returns exactly one line per sentence, use them;
if it returns more, truncate; if fewer, clean each sentence individually,
falling back to the original sentence only when the model sends nothing. -/
def fallbackRefineChunk (resp : ChunkResponse) (chunk : List String) : List String :=
  let lines := resp.fallbackLines
  if lines.length = chunk.length then lines
  else if chunk.length < lines.length then lines.take chunk.length
  else chunk.enum.map (fun p => let fl := resp.perSentence p.1 p.2; if fl = "" then p.2 else fl)

/-- Embeds the per-chunk branch of `refine_evidence` (`evidence_refiner.py`
lines 151-195): use the JSON tier's list only when it parsed as a list of
exactly the chunk's length, otherwise run the fallback chain. -/
def cleanChunk (resp : ChunkResponse) (chunk : List String) : List String :=
  match resp.jsonCleaned with
  | some l => if l.length = chunk.length then l else fallbackRefineChunk resp chunk
  | none => fallbackRefineChunk resp chunk

/-- Embeds `refine_evidence` (`evidence_refiner.py` lines 127-199): per
factor, empty input stays empty; otherwise the sentences are chunked (25
per chunk), each chunk is cleaned through the tiered fallback chain, and
the cleaned chunks are concatenated.  `oracle factor i` is the service's
behaviour on the `i`-th chunk of `factor`. -/
def refineEvidence (oracle : String → Nat → ChunkResponse)
    (evidence_map : List (String × List String)) : List (String × List String) :=
  evidence_map.map (fun p =>
    if p.2 = [] then (p.1, [])
    else (p.1, ((chunkList 24 p.2).enum.map (fun c => cleanChunk (oracle p.1 c.1) c.2)).flatten))

/-! ## Merge + dedupe step of the pipeline (`pipeline/run_pipeline.py`) -/

/-- Modelled from the spec: `_dedupe_preserve_order` is imported by
`run_pipeline.py` from `modules/evidence_refiner` but its definition is
missing from the repository's files.  The spec says the merged evidence
is "deduplicated at refinement time preserving first-seen order" with
"no duplicate normalized sentence text within a factor's list after
refinement", so this keeps the first occurrence of each normalized
sentence text.  `seen` holds the normalized keys already emitted. -/
def dedupeGo (seen : List String) : List String → List String
  | [] => []
  | s :: rest =>
      let key := normalizeSentence s
      if key ∈ seen then dedupeGo seen rest
      else s :: dedupeGo (key :: seen) rest

/-- Modelled from the spec: `_dedupe_preserve_order` on a factor's merged
sentence list (see `dedupeGo`). -/
def dedupePreserveOrder (l : List String) : List String := dedupeGo [] l

/-- Embeds step 6 of `run_pipeline` (`run_pipeline.py` lines 131-144):
for every factor present in either refined map, concatenate its text and
table sentences (text first) and dedupe preserving order.  Python takes
the factor set `set(text) | set(tables)`, whose iteration order is
unspecified; this model lists text keys first, then new table keys. -/
def mergeRefinedEvidence (refined_text refined_tables : List (String × List String)) :
    List (String × List String) :=
  (dedupKeys (refined_text.map Prod.fst ++ refined_tables.map Prod.fst)).map
    (fun f => (f, dedupePreserveOrder (dictGet refined_text f [] ++ dictGet refined_tables f [])))

/-! ## Pipeline failure semantics (`pipeline/run_pipeline.py`,
`modules/assessments/run_assessments.py`, `sdg1_assessor.py`) -/

/-- Content of `config/SDG_rules.json`: the file may or may not contain
the `"SDG1_RULES"` object (`{level: {rule_code: description}}`, kept here
as level → rule codes since the descriptions are never read). -/
structure RulesFile where
  sdg1_rules : Option (List (String × List String))

/-- Content of `config/SDG_scoring.json`: the file may or may not contain
the `"SDG_1_No_Poverty"` block. -/
structure ScoringFile where
  sdg1 : Option ScoringCfg

/-- The on-disk artifacts of one project that the inference and scoring
steps read and write, each `none` when the file is missing. -/
structure ProjectFS where
  refined : Option (List (String × List String))
  evidence_sdg1 : Option (List (String × List EvidenceItem))
  rules_file : Option RulesFile
  scoring_file : Option ScoringFile
  model_sdg1 : Bool

/-- Constant `SDG_MODEL_REGISTRY["SDG_1_No_Poverty"]["labels"]` from
`config/SDG_model_registry.py`. -/
def sdg1Labels : List String :=
  ["O1", "O2", "O3", "O5", "O6", "R3", "R4", "R5", "R6", "I1", "I3", "I5"]

/-- Constant `SDG_MODEL_REGISTRY["SDG_1_No_Poverty"]["threshold"] = 0.60`. -/
def sdg1Threshold : ℚ := 3/5

/-- Embeds `assess_sdg1_for_project` (`sdg1_assessor.py` lines 111-276) as
it acts on the project filesystem: the three existence checks raise
`FileNotFoundError` in order (lines 134-139), the two missing-key checks
raise `KeyError` (lines 148-158), and otherwise the score is computed
(`assessCore`) and written. -/
def assessSdg1 (fs : ProjectFS) : Except String AssessOutcome :=
  match fs.evidence_sdg1 with
  | none => .error "Missing evidence file"
  | some satisfied =>
    match fs.rules_file with
    | none => .error "Missing rules config"
    | some rf =>
      match fs.scoring_file with
      | none => .error "Missing scoring config"
      | some sf =>
        match rf.sdg1_rules with
        | none => .error "Expected SDG1_RULES object in config/SDG_rules.json"
        | some block =>
          match sf.sdg1 with
          | none => .error "SDG_1_No_Poverty not found in config/SDG_scoring.json"
          | some cfg => .ok (assessCore satisfied (invertRules block) cfg)

/-- Embeds `run_sdg_models_for_project` (`sdg_inference.py` lines 27-146)
for the one registered SDG: raise when `refined_sentences.json` is
missing; write an empty evidence file when the SDG key maps to no
sentences; skip (writing nothing) when the key is absent or the model
folder is missing; otherwise write the classifier's rule evidence. -/
def runSdgModels (fs : ProjectFS) (classify : String → List ℚ) :
    Except String ProjectFS :=
  match fs.refined with
  | none => .error "Missing refined sentences file"
  | some refined =>
    match dictGetOpt refined "SDG_1_No_Poverty" with
    | none => .ok fs
    | some ss =>
      if ss = [] then .ok { fs with evidence_sdg1 := some [] }
      else if fs.model_sdg1 then
        .ok { fs with evidence_sdg1 := some (runRuleEvidence sdg1Labels sdg1Threshold classify ss) }
      else .ok fs

/-- Embeds `run_assessments_for_project` (`run_assessments.py` lines
20-50): the one enabled assessor runs inside `try/except Exception`,
so a failing assessment is logged as a warning and skipped — the
returned `written` list is empty and nothing propagates. -/
def runAssessments (fs : ProjectFS) : List AssessOutcome :=
  match assessSdg1 fs with
  | .ok r => [r]
  | .error _ => []

/-- Embeds the `inference_only` path of `run_pipeline`
(`run_pipeline.py` lines 158-209): raise when `refined_sentences.json`
is missing (line 161), then step 8 (`runSdgModels`, whose errors
propagate) and step 9 (`runAssessments`, whose errors do not). -/
def runPipelineInferenceOnly (fs : ProjectFS) (classify : String → List ℚ) :
    Except String (ProjectFS × List AssessOutcome) :=
  match fs.refined with
  | none => .error "Missing refined_sentences.json"
  | some _ =>
    match runSdgModels fs classify with
    | .error e => .error e
    | .ok fs' => .ok (fs', runAssessments fs')

/-! ## Aggregator and factor scoring (`modules/scoring.py`) -/

/-- One factor-level assessment dict as consumed by `aggregate_by_sdg`
(`scoring.py` lines 106-168): its score, SDG goal and optional target. -/
structure AssessmentRow where
  score : ℤ
  sdg_goal : String
  sdg_target : Option String
  deriving Repr, DecidableEq

/-- Embeds `statistics.mean` on the integer scores, as an exact rational. -/
def ratMean (l : List ℤ) : ℚ := (l.sum : ℚ) / (l.length : ℚ)

/-- Embeds `map_score_to_rating` (`scoring.py` lines 91-100). -/
def mapScoreToRating (avg : ℚ) : String :=
  if 12 ≤ avg then "5+"
  else if 9 ≤ avg then "4+"
  else if 6 ≤ avg then "3+"
  else if 3 ≤ avg then "2+"
  else "1+"

/-- Average/rating/count triple (the `overall` block and each target's
stats in `aggregate_by_sdg`'s output). -/
structure RatingStats where
  average_score : ℚ
  rating : String
  num_contributions : Nat
  deriving Repr, DecidableEq

/-- One `by_sdg[goal]` block of `aggregate_by_sdg`'s output. -/
structure SdgGroupStats where
  average_score : ℚ
  rating : String
  num_contributions : Nat
  targets : List (String × RatingStats)
  deriving Repr, DecidableEq

/-- The full output of `aggregate_by_sdg`. -/
structure AggResult where
  overall : RatingStats
  by_sdg : List (String × SdgGroupStats)
  deriving Repr, DecidableEq

/-- Python truthiness of `a.get("sdg_target")`: present and non-empty. -/
def targetTruthy (a : AssessmentRow) : Prop :=
  match a.sdg_target with
  | some t => t ≠ ""
  | none => False

instance (a : AssessmentRow) : Decidable (targetTruthy a) := by
  unfold targetTruthy; exact match a.sdg_target with
  | some t => by exact instDecidableNot
  | none => by exact instDecidableFalse

/-- Embeds `aggregate_by_sdg` (`scoring.py` lines 106-168): drop
assessments with `score ≤ 0` (`a.get("score", 0) > 0`), return the fixed
zero result when none survive, otherwise the overall mean/rating/count
and, grouped by goal in first-seen order, each goal's mean/rating/count
with per-target stats for truthy targets. -/
def aggregateBySdg (rows : List AssessmentRow) : AggResult :=
  let valid := rows.filter (fun a => 0 < a.score)
  if valid = [] then ⟨⟨0, "1+", 0⟩, []⟩
  else
    let overallAvg := ratMean (valid.map AssessmentRow.score)
    let goals := dedupKeys (valid.map AssessmentRow.sdg_goal)
    let by_sdg := goals.map (fun g =>
      let gscores := (valid.filter (fun a => a.sdg_goal = g)).map AssessmentRow.score
      let tvalid := valid.filter (fun a => a.sdg_goal = g ∧ targetTruthy a)
      let tkeys := dedupKeys (tvalid.filterMap AssessmentRow.sdg_target)
      let targets := tkeys.map (fun t =>
        let ts := (tvalid.filter (fun a => a.sdg_target = some t)).map AssessmentRow.score
        (t, (⟨ratMean ts, mapScoreToRating (ratMean ts), ts.length⟩ : RatingStats)))
      (g, ({ average_score := ratMean gscores
             rating := mapScoreToRating (ratMean gscores)
             num_contributions := gscores.length
             targets := targets } : SdgGroupStats)))
    ⟨⟨overallAvg, mapScoreToRating overallAvg, valid.length⟩, by_sdg⟩

/-- Input dict of `score_factor_with_details` (`scoring.py` lines 10-76). -/
structure FactorAssessment where
  excluded_reason : Option String
  level_of_change : String
  evidence_quality : String
  durability_measures : Bool
  deriving Repr, DecidableEq

/-- Python truthiness of `assessment.get("excluded_reason")`. -/
def excludedTruthy (a : FactorAssessment) : Prop :=
  match a.excluded_reason with
  | some r => r ≠ ""
  | none => False

instance (a : FactorAssessment) : Decidable (excludedTruthy a) := by
  unfold excludedTruthy; exact match a.excluded_reason with
  | some r => by exact instDecidableNot
  | none => by exact instDecidableFalse

/-- Output dict of `score_factor_with_details`. -/
structure ScoreDetails where
  score : ℤ
  level_base : ℤ
  evidence_weight : ℚ
  durability_bonus : ℤ
  raw_score : ℚ
  excluded_by_reason : Option String
  deriving Repr, DecidableEq

/-- Embeds `score_factor_with_details` (`scoring.py` lines 10-76): a
truthy `excluded_reason` short-circuits to the zero record; otherwise
`level_base` and `evidence_weight` come from the two lookup tables (with
defaults 0 and 0.6), the durability bonus is 2 or 0, and the final score
is 0 when `raw_score ≤ 0`, else `int(round(raw_score))` clamped to
`[1, 15]` via `max(1, min(15, ...))`.  The `level_map` lookup (`scoring.py`
lines 36-43, default 0) comes first. -/
def levelBase (level : String) : ℤ :=
  if level = "predicted_only" then 0
  else if level = "output" then 4
  else if level = "outcome" then 7
  else if level = "impact" then 9
  else 0

/-- The `evidence_map` lookup of `score_factor_with_details` (`scoring.py`
lines 46-53), default 0.6. -/
def evidenceWeight (quality : String) : ℚ :=
  if quality = "narrated" then 3/5
  else if quality = "estimated" then 4/5
  else if quality = "quantified" then 1
  else if quality = "quantified_with_method" then 6/5
  else 3/5

/-- The durability bonus of `score_factor_with_details` (line 57). -/
def durabilityBonus (durability : Bool) : ℤ := if durability then 2 else 0

/-- Embeds `raw_score = level_base * evidence_weight + durability_bonus`
(`scoring.py` line 60). -/
def rawFactorScore (a : FactorAssessment) : ℚ :=
  (levelBase a.level_of_change : ℚ) * evidenceWeight a.evidence_quality
    + (durabilityBonus a.durability_measures : ℚ)

/-- The exclusion branch and score assembly of
`score_factor_with_details` (see `levelBase`, `evidenceWeight`,
`durabilityBonus`, `rawFactorScore` for its lookup tables). -/
def scoreFactorWithDetails (a : FactorAssessment) : ScoreDetails :=
  if excludedTruthy a then
    ⟨0, 0, 0, 0, 0, a.excluded_reason⟩
  else
    ⟨if rawFactorScore a ≤ 0 then 0 else max 1 (min 15 (pythonRound (rawFactorScore a))),
     levelBase a.level_of_change, evidenceWeight a.evidence_quality,
     durabilityBonus a.durability_measures, rawFactorScore a, none⟩

/-! ## Shared lemmas -/

/-- Membership is preserved by `dedupKeys`. -/
theorem mem_dedupKeys_aux (l acc : List String) (x : String) :
    x ∈ l.foldl (fun ks k => if k ∈ ks then ks else ks ++ [k]) acc ↔ x ∈ acc ∨ x ∈ l := by
  induction l generalizing acc with
  | nil => simp
  | cons h t ih =>
      simp only [List.foldl_cons, ih]
      by_cases hm : h ∈ acc
      · simp only [if_pos hm, List.mem_cons]
        constructor
        · rintro (ha | ht)
          · exact Or.inl ha
          · exact Or.inr (Or.inr ht)
        · rintro (ha | he | ht)
          · exact Or.inl ha
          · exact Or.inl (he ▸ hm)
          · exact Or.inr ht
      · simp only [if_neg hm, List.mem_append, List.mem_singleton, List.mem_cons]
        tauto

/-- Lemma: `dedupKeys` keeps exactly the elements of its input. -/
theorem mem_dedupKeys (l : List String) (x : String) : x ∈ dedupKeys l ↔ x ∈ l := by
  simpa using mem_dedupKeys_aux l [] x

/-- Inserting with `insertByDesc` permutes to consing. -/
theorem insertByDesc_perm {α : Type} (key : α → ℚ) (x : α) (l : List α) :
    (insertByDesc key x l).Perm (x :: l) := by
  induction l with
  | nil => exact List.Perm.refl _
  | cons y ys ih =>
      unfold insertByDesc
      by_cases h : key y < key x
      · simp only [if_pos h]
        exact List.Perm.refl _
      · simp only [if_neg h]
        exact (ih.cons y).trans (List.Perm.swap x y ys)

/-- The stable descending sort permutes its input. -/
theorem sortByKeyDesc_perm {α : Type} (key : α → ℚ) (l : List α) :
    (sortByKeyDesc key l).Perm l := by
  have main : ∀ (l acc : List α),
      (l.foldl (fun acc x => insertByDesc key x acc) acc).Perm (acc ++ l) := by
    intro l
    induction l with
    | nil => intro acc; simp
    | cons x xs ih =>
        intro acc
        have h1 := ih (insertByDesc key x acc)
        have h2 : (insertByDesc key x acc ++ xs).Perm ((x :: acc) ++ xs) :=
          (insertByDesc_perm key x acc).append_right xs
        have h3 : ((x :: acc) ++ xs).Perm (acc ++ x :: xs) := List.perm_middle.symm
        rw [List.foldl_cons]
        exact h1.trans (h2.trans h3)
  simpa using main l []

/-- Lemma: `insertByDesc` keeps a descending-sorted list descending-sorted. -/
theorem insertByDesc_sorted {α : Type} (key : α → ℚ) (x : α) (l : List α)
    (h : l.Sorted (fun a b => key b ≤ key a)) :
    (insertByDesc key x l).Sorted (fun a b => key b ≤ key a) := by
  induction l with
  | nil => simp [insertByDesc]
  | cons y ys ih =>
      rcases List.sorted_cons.mp h with ⟨hy, hys⟩
      unfold insertByDesc
      by_cases hlt : key y < key x
      · simp only [if_pos hlt]
        refine List.sorted_cons.mpr ⟨?_, h⟩
        intro z hz
        rcases List.mem_cons.mp hz with hz | hz
        · exact hz ▸ le_of_lt hlt
        · exact (hy z hz).trans (le_of_lt hlt)
      · simp only [if_neg hlt]
        refine List.sorted_cons.mpr ⟨?_, ih hys⟩
        intro z hz
        have hz' : z ∈ x :: ys := (insertByDesc_perm key x ys).mem_iff.mp hz
        rcases List.mem_cons.mp hz' with hz' | hz'
        · exact hz' ▸ le_of_not_lt hlt
        · exact hy z hz'

/-- The stable sort's output is descending in the key. -/
theorem sortByKeyDesc_sorted {α : Type} (key : α → ℚ) (l : List α) :
    (sortByKeyDesc key l).Sorted (fun a b => key b ≤ key a) := by
  have main : ∀ (l acc : List α), acc.Sorted (fun a b => key b ≤ key a) →
      (l.foldl (fun acc x => insertByDesc key x acc) acc).Sorted (fun a b => key b ≤ key a) := by
    intro l
    induction l with
    | nil => intro acc hacc; simpa using hacc
    | cons x xs ih =>
        intro acc hacc
        rw [List.foldl_cons]
        exact ih (insertByDesc key x acc) (insertByDesc_sorted key x acc hacc)
  exact main l [] (by simp)

/-! ## C2: causal gating -/

/-- C2: causal gating in the Scoring Engine.  The outcome gate multiplies
the outcome raw sum by the configured penalty factor and records its
penalty note exactly when the OUTCOME unique-sentence count is positive
and no rule of the configured core-output set has surviving evidence
(the core-output count, a sum of per-rule counts over the distinct core
rules, is 0 iff each such rule's count is 0); the impact gate multiplies
the impact raw sum by its penalty factor and records its note exactly
when the IMPACT count is positive and the OUTCOME count is below the
configured minimum; the two gates are computed independently, and the
`.get` defaults are penalty 0.5, penalty 0.4 and minimum 3. -/
theorem causal_gates_exact (sr : List (String × List EvidenceItem))
    (rtl : List (String × String)) (cfg : ScoringCfg) :
    ((assessCore sr rtl cfg).outcome_weight =
      if 0 < (assessCore sr rtl cfg).counts_by_level.OUTCOME ∧
          (assessCore sr rtl cfg).core_output_count = 0
      then cfg.gates.outcome_penalty_if_no_core_outputs else 1)
    ∧ ((assessCore sr rtl cfg).impact_weight =
      if 0 < (assessCore sr rtl cfg).counts_by_level.IMPACT ∧
          (assessCore sr rtl cfg).counts_by_level.OUTCOME < cfg.gates.min_outcome_for_impact
      then cfg.gates.impact_penalty_if_low_outcomes else 1)
    ∧ ((assessCore sr rtl cfg).penalties =
      (if 0 < (assessCore sr rtl cfg).counts_by_level.OUTCOME ∧
          (assessCore sr rtl cfg).core_output_count = 0
       then ["Outcome downweighted: outcomes present but core outputs missing"] else [])
      ++ (if 0 < (assessCore sr rtl cfg).counts_by_level.IMPACT ∧
            (assessCore sr rtl cfg).counts_by_level.OUTCOME < cfg.gates.min_outcome_for_impact
          then ["Impact downweighted: outcomes < " ++ toString cfg.gates.min_outcome_for_impact]
          else []))
    ∧ ((assessCore sr rtl cfg).core_output_count = 0 ↔
        ∀ r ∈ cfg.gates.core_outputs, dictGet (assessCore sr rtl cfg).counts_by_rule r 0 = 0)
    ∧ ((assessCore sr rtl cfg).norm_R =
        capNorm ((assessCore sr rtl cfg).raw_R * (assessCore sr rtl cfg).outcome_weight)
          (dictGet cfg.caps "OUTCOME" 25))
    ∧ ((assessCore sr rtl cfg).norm_I =
        capNorm ((assessCore sr rtl cfg).raw_I * (assessCore sr rtl cfg).impact_weight)
          (dictGet cfg.caps "IMPACT" 10))
    ∧ defaultGates.outcome_penalty_if_no_core_outputs = 1/2
    ∧ defaultGates.impact_penalty_if_low_outcomes = 2/5
    ∧ defaultGates.min_outcome_for_impact = 3 := by
  refine ⟨rfl, rfl, rfl, ?_, rfl, rfl, rfl, rfl, rfl⟩
  show (((dedupKeys cfg.gates.core_outputs).map
      (fun r => dictGet (assessCore sr rtl cfg).counts_by_rule r 0)).sum = 0 ↔ _)
  rw [List.sum_eq_zero_iff]
  constructor
  · intro h r hr
    exact h _ (List.mem_map_of_mem _ ((mem_dedupKeys _ r).mpr hr))
  · intro h n hn
    obtain ⟨r, hr, rfl⟩ := List.mem_map.mp hn
    exact h r ((mem_dedupKeys _ r).mp hr)

/-! ## C3: end-to-end scoring scenario -/

/-- The scenario configuration of the spec's end-to-end test: level
threshold 0.6, rule weight 1.0 for `O2`, caps 30/25/10, mix
0.30/0.40/0.30, default gates. -/
def c3Config : ScoringCfg :=
  { thresholds := [("OUTPUT", 3/5), ("OUTCOME", 3/5), ("IMPACT", 3/5)]
    rule_weights := [("O2", 1)]
    caps := [("OUTPUT", 30), ("OUTCOME", 25), ("IMPACT", 10)]
    level_mix := [("OUTPUT", 3/10), ("OUTCOME", 2/5), ("IMPACT", 3/10)]
    gates := defaultGates
    top_evidence_per_rule := 3 }

/-- The scenario's Scoring Engine run on the single-item rule evidence
`{"O2": [{"sentence": "Trained 50 farmers", "probability": 0.9}]}`. -/
def c3Result : AssessOutcome :=
  assessCore [("O2", [⟨"Trained 50 farmers", 9/10⟩])] [("O2", "OUTPUT")] c3Config

set_option maxRecDepth 100000 in
/-- C3: on the scenario input, `output_raw = 1.0`, `output_norm = 1/30`
(reported as 0.0333 after 4-decimal rounding), the OUTPUT term
contributes exactly 0.01 to `final_0_1`, which here equals 0.01 with
`final_0_100 = 1.0`; and in general `final_0_1` is the configured
weighted mix of the three normalized level scores and `final_0_100 =
round(final_0_1 × 100, 2)`. -/
theorem end_to_end_scenario :
    c3Result.raw_O = 1
    ∧ c3Result.norm_O = 1/30
    ∧ round4 c3Result.norm_O = 333/10000
    ∧ c3Result.norm_O * dictGet c3Config.level_mix "OUTPUT" (3/10) = 1/100
    ∧ c3Result.final_0_1 = 1/100
    ∧ c3Result.final_0_100 = 1
    ∧ (∀ sr rtl cfg, (assessCore sr rtl cfg).final_0_1 =
        (assessCore sr rtl cfg).norm_O * dictGet cfg.level_mix "OUTPUT" (3/10)
        + (assessCore sr rtl cfg).norm_R * dictGet cfg.level_mix "OUTCOME" (2/5)
        + (assessCore sr rtl cfg).norm_I * dictGet cfg.level_mix "IMPACT" (3/10))
    ∧ (∀ sr rtl cfg, (assessCore sr rtl cfg).final_0_100 =
        round2 ((assessCore sr rtl cfg).final_0_1 * 100)) := by
  have hn : c3Result.norm_O = 1/30 := by with_unfolding_all decide
  have hf : c3Result.final_0_1 = 1/100 := by with_unfolding_all decide
  have hmix : dictGet c3Config.level_mix "OUTPUT" (3/10) = 3/10 := by
    with_unfolding_all decide
  refine ⟨by with_unfolding_all decide, hn, ?_, ?_, hf, ?_,
    fun _ _ _ => rfl, fun _ _ _ => rfl⟩
  · rw [hn]; norm_num [round4, pythonRound]
  · rw [hn, hmix]; norm_num
  · show round2 (c3Result.final_0_1 * 100) = 1
    rw [hf]; norm_num [round2, pythonRound]

/-! ## C10: implicit factor-score range -/

/-- C10: `score_factor_with_details` returns an integer score in
`[0, 15]`; the score is 0 exactly when the exclusion reason is set
(truthy) or the raw score `level_base × evidence_weight +
durability_bonus` is ≤ 0, and otherwise it equals the raw score rounded
and clamped into `[1, 15]` — a 0-15 scale, matching the 12/9/6/3 band
thresholds of `map_score_to_rating`. -/
theorem factor_score_range (a : FactorAssessment) :
    0 ≤ (scoreFactorWithDetails a).score
    ∧ (scoreFactorWithDetails a).score ≤ 15
    ∧ ((scoreFactorWithDetails a).score = 0 ↔
        excludedTruthy a ∨
          ((scoreFactorWithDetails a).level_base : ℚ) * (scoreFactorWithDetails a).evidence_weight
            + ((scoreFactorWithDetails a).durability_bonus : ℚ) ≤ 0)
    ∧ (¬ excludedTruthy a → ¬ (scoreFactorWithDetails a).raw_score ≤ 0 →
        (scoreFactorWithDetails a).score =
          max 1 (min 15 (pythonRound (scoreFactorWithDetails a).raw_score))) := by
  by_cases hex : excludedTruthy a
  · simp only [scoreFactorWithDetails, if_pos hex]
    exact ⟨le_refl 0, by norm_num, by simp [hex], fun h => absurd hex h⟩
  · simp only [scoreFactorWithDetails, if_neg hex]
    by_cases hraw : rawFactorScore a ≤ 0
    · simp only [if_pos hraw]
      refine ⟨le_refl 0, by norm_num, ?_, fun _ h => absurd hraw h⟩
      simp only [rawFactorScore] at hraw
      simp [hex, hraw]
    · simp only [if_neg hraw]
      refine ⟨le_trans zero_le_one (le_max_left _ _),
        max_le (by norm_num) (min_le_left _ _), ?_, by simp⟩
      have hraw' : ¬ ((levelBase a.level_of_change : ℚ) * evidenceWeight a.evidence_quality
          + (durabilityBonus a.durability_measures : ℚ) ≤ 0) := hraw
      simp only [hex, hraw', or_self, iff_false, false_or]
      intro h
      have h1 : (1:ℤ) ≤ max 1 (min 15 (pythonRound (rawFactorScore a))) := le_max_left _ _
      omega

/-! ## C8: aggregator contract -/

/-- C8: `aggregate_by_sdg` excludes exactly the zero-score assessments
(for the producer's non-negative scores, `score > 0` and `score ≠ 0`
filter the same rows), returns the fixed
`{average_score: 0.0, rating: "1+", num_contributions: 0}` result when
nothing survives, otherwise reports the arithmetic mean of the surviving
scores overall and per SDG goal with the band of each mean, where the
band thresholds give `12.0 → "5+"`, `11.99 → "4+"` and `0 → "1+"`. -/
theorem aggregate_excludes_zero_scores (rows : List AssessmentRow)
    (h : ∀ a ∈ rows, 0 ≤ a.score) :
    rows.filter (fun a => 0 < a.score) = rows.filter (fun a => a.score ≠ 0)
    ∧ (rows.filter (fun a => 0 < a.score) = [] →
        aggregateBySdg rows = ⟨⟨0, "1+", 0⟩, []⟩)
    ∧ (rows.filter (fun a => 0 < a.score) ≠ [] →
        (aggregateBySdg rows).overall =
          ⟨ratMean ((rows.filter (fun a => 0 < a.score)).map AssessmentRow.score),
            mapScoreToRating
              (ratMean ((rows.filter (fun a => 0 < a.score)).map AssessmentRow.score)),
            (rows.filter (fun a => 0 < a.score)).length⟩)
    ∧ (∀ g st, (g, st) ∈ (aggregateBySdg rows).by_sdg →
        st.average_score =
          ratMean (((rows.filter (fun a => 0 < a.score)).filter
            (fun a => a.sdg_goal = g)).map AssessmentRow.score)
        ∧ st.rating = mapScoreToRating st.average_score
        ∧ st.num_contributions =
            ((rows.filter (fun a => 0 < a.score)).filter (fun a => a.sdg_goal = g)).length)
    ∧ mapScoreToRating 12 = "5+"
    ∧ mapScoreToRating (1199/100) = "4+"
    ∧ mapScoreToRating 0 = "1+" := by
  have hfil : rows.filter (fun a => 0 < a.score) = rows.filter (fun a => a.score ≠ 0) := by
    apply List.filter_congr
    intro a ha
    have h0 := h a ha
    simp only [decide_eq_decide]
    omega
  refine ⟨hfil, ?_, ?_, ?_, by norm_num [mapScoreToRating],
    by norm_num [mapScoreToRating], by norm_num [mapScoreToRating]⟩
  · intro hempty
    simp only [aggregateBySdg, if_pos hempty]
  · intro hne
    simp only [aggregateBySdg, if_neg hne]
  · intro g st hmem
    by_cases hv : rows.filter (fun a => 0 < a.score) = []
    · simp only [aggregateBySdg, if_pos hv] at hmem
      simp at hmem
    · simp only [aggregateBySdg, if_neg hv] at hmem
      obtain ⟨g', _, heq⟩ := List.mem_map.mp hmem
      obtain ⟨hg, hst⟩ := Prod.mk.injEq .. ▸ heq
      subst hg
      subst hst
      exact ⟨by simp [List.length_map], rfl, by simp [List.length_map]⟩

/-- Witness for C8 at a concrete input: one score-12 row, one score-0 row. -/
theorem aggregate_excludes_zero_scores_witness :
    [(⟨12, "1", none⟩ : AssessmentRow), ⟨0, "1", none⟩].filter (fun a => 0 < a.score)
      = [(⟨12, "1", none⟩ : AssessmentRow), ⟨0, "1", none⟩].filter (fun a => a.score ≠ 0) :=
  (aggregate_excludes_zero_scores [⟨12, "1", none⟩, ⟨0, "1", none⟩] (by decide)).1

/-! ## C4: Evidence Refiner length preservation -/

/-- Concatenating the chunks of `_chunk_sentences` restores the input. -/
theorem chunkList_flatten (k : Nat) (l : List String) :
    (chunkList k l).flatten = l := by
  have main : ∀ n (l : List String), l.length ≤ n → (chunkList k l).flatten = l := by
    intro n
    induction n with
    | zero =>
        intro l hl
        have hnil : l = [] := List.eq_nil_of_length_eq_zero (Nat.le_zero.mp hl)
        subst hnil
        simp [chunkList]
    | succ n ih =>
        intro l hl
        match l with
        | [] => simp [chunkList]
        | x :: xs =>
            rw [chunkList]
            simp only [List.flatten_cons]
            rw [ih ((x :: xs).drop (k + 1))
              (by simp only [List.length_drop, List.length_cons]
                  simp only [List.length_cons] at hl
                  omega)]
            exact List.take_append_drop _ _
  exact main l.length l le_rfl

/-- Every tier of the per-chunk fallback chain returns exactly one
cleaned sentence per input sentence. -/
theorem cleanChunk_length (resp : ChunkResponse) (chunk : List String) :
    (cleanChunk resp chunk).length = chunk.length := by
  have hfb : (fallbackRefineChunk resp chunk).length = chunk.length := by
    unfold fallbackRefineChunk
    by_cases h1 : resp.fallbackLines.length = chunk.length
    · simp [h1]
    · simp only [if_neg h1]
      by_cases h2 : chunk.length < resp.fallbackLines.length
      · simp only [if_pos h2, List.length_take]
        omega
      · simp only [if_neg h2, List.length_map, List.enum_length]
  unfold cleanChunk
  match resp.jsonCleaned with
  | some cl =>
      by_cases h : cl.length = chunk.length
      · simp [h]
      · simpa [h] using hfb
  | none => exact hfb

/-- C4: for every factor and every input sentence list, and for every
possible rewriting-service behaviour (JSON tier, line-by-line fallback
with truncation, or per-sentence fallback), `refine_evidence` returns a
cleaned list of exactly the input's length — factor by factor, the
refined map has the same keys with the same list lengths. -/
theorem refine_preserves_lengths (oracle : String → Nat → ChunkResponse)
    (evidence_map : List (String × List String)) :
    (refineEvidence oracle evidence_map).map (fun p => (p.1, p.2.length))
      = evidence_map.map (fun p => (p.1, p.2.length)) := by
  unfold refineEvidence
  rw [List.map_map]
  apply List.map_congr_left
  intro p _
  by_cases hp2 : p.2 = []
  · simp [hp2]
  · simp only [Function.comp_apply, if_neg hp2]
    refine Prod.ext rfl ?_
    show (((chunkList 24 p.2).enum.map
      (fun c => cleanChunk (oracle p.1 c.1) c.2)).flatten).length = p.2.length
    rw [List.length_flatten, List.map_map]
    have hcong : (chunkList 24 p.2).enum.map
        (List.length ∘ fun c => cleanChunk (oracle p.1 c.1) c.2)
        = (chunkList 24 p.2).enum.map (fun c => c.2.length) := by
      apply List.map_congr_left
      intro c _
      exact cleanChunk_length _ _
    rw [hcong]
    have henum : (chunkList 24 p.2).enum.map (fun c => c.2.length)
        = ((chunkList 24 p.2).map List.length) := by
      rw [show (fun c : Nat × List String => c.2.length)
          = List.length ∘ Prod.snd from rfl, ← List.map_map, List.enum_map_snd]
    rw [henum, ← List.length_flatten, chunkList_flatten]

/-! ## C5: Rule Classifier Runner output shape -/

/-- C5 counterexample: the Rule Classifier Runner neither sorts a rule's
entries by probability descending nor dedupes them by normalized
sentence text.  With threshold 0.6, sentences `["b", "a"]` classified at
0.7 and 0.9 stay in input order (0.7 before 0.9), and the duplicate
sentence `"x"` (same normalized text) is kept twice. -/
theorem runner_counterexample :
    runRuleEvidence ["L"] (3/5) (fun t => if t = "b" then [7/10] else [9/10]) ["b", "a"]
      = [("L", [⟨"b", 7/10⟩, ⟨"a", 9/10⟩])]
    ∧ ¬ List.Sorted (fun x y : EvidenceItem => y.probability ≤ x.probability)
        [(⟨"b", 7/10⟩ : EvidenceItem), ⟨"a", 9/10⟩]
    ∧ runRuleEvidence ["L"] (3/5) (fun _ => [9/10]) ["x", "x"]
      = [("L", [⟨"x", 9/10⟩, ⟨"x", 9/10⟩])]
    ∧ ¬ (List.map (fun it : EvidenceItem => normalizeSentence it.sentence)
        [(⟨"x", 9/10⟩ : EvidenceItem), ⟨"x", 9/10⟩]).Nodup := by
  with_unfolding_all decide

/-- C5 as amended: every rule list the Runner emits is non-empty, equals
the concatenation, in input-sentence order, of each sentence's
qualifying matches (no sorting, no dedup), and every retained entry
stems from a classifier probability ≥ the configured threshold, stored
rounded to 4 decimals. -/
theorem runner_entries_in_input_order (labels : List String) (thr : ℚ)
    (classify : String → List ℚ) (sentences : List String)
    (rule : String) (items : List EvidenceItem)
    (hmem : (rule, items) ∈ runRuleEvidence labels thr classify sentences) :
    items ≠ []
    ∧ items = (sentences.map (fun t => sentenceMatchesFor rule labels thr t (classify t))).flatten
    ∧ ∀ it ∈ items, ∃ t p, t ∈ sentences ∧ p ∈ classify t ∧ thr ≤ p ∧ it = ⟨t, round4 p⟩ := by
  unfold runRuleEvidence at hmem
  obtain ⟨hmap, hne⟩ := List.mem_filter.mp hmem
  obtain ⟨lab, _, heq⟩ := List.mem_map.mp hmap
  obtain ⟨hrule, hitems⟩ := Prod.mk.injEq .. ▸ heq.symm
  subst hrule
  refine ⟨by simpa using hne, hitems, ?_⟩
  intro it hit
  rw [hitems] at hit
  obtain ⟨chunk, hchunk, hitc⟩ := List.mem_flatten.mp hit
  obtain ⟨t, ht, hteq⟩ := List.mem_map.mp hchunk
  subst hteq
  unfold sentenceMatchesFor at hitc
  obtain ⟨pair, hpair, hcond⟩ := List.mem_filterMap.mp hitc
  by_cases hc : pair.1 = rule ∧ thr ≤ pair.2
  · simp only [if_pos hc] at hcond
    exact ⟨t, pair.2, ht, (List.of_mem_zip hpair).2, hc.2, (Option.some.injEq .. ▸ hcond.symm)⟩
  · simp only [if_neg hc] at hcond
    exact absurd hcond (by simp)

/-- Witness for C5's amended theorem at a concrete input. -/
theorem runner_entries_witness :
    ([(⟨"s", (3:ℚ)/4⟩ : EvidenceItem)] ≠ [])
    ∧ ∀ it ∈ [(⟨"s", (3:ℚ)/4⟩ : EvidenceItem)],
        ∃ t p, t ∈ ["s"] ∧ p ∈ (fun _ : String => [(3:ℚ)/4]) t ∧ (1:ℚ)/2 ≤ p
          ∧ it = ⟨t, round4 p⟩ :=
  have h := runner_entries_in_input_order ["L"] (1/2) (fun _ => [3/4]) ["s"] "L"
    [⟨"s", 3/4⟩] (by with_unfolding_all decide)
  ⟨h.1, h.2.2⟩

/-! ## C6: Factor Matcher multi-assignment -/

/-- C6 counterexample: with `top_k = 2`, labels `["A", "A", "B"]` (two
prototype rows for factor A) and similarities `[0.9, 0.8, 0.7]` against
`min_similarity = 0.5`, the sentence is appended twice to factor A's
list and factor B — whose prototype's similarity 0.7 meets the threshold
— receives nothing: the top-k selection runs over prototype rows, not
distinct factors. -/
theorem matcher_counterexample :
    matchFactors ["A", "A", "B"] (fun _ => [9/10, 8/10, 7/10]) 2 (1/2) ["s"]
      = [("A", ["s", "s"])]
    ∧ ["A", "A", "B"].getD 2 "" = "B"
    ∧ (1:ℚ)/2 ≤ 7/10 := by
  with_unfolding_all decide

/-- C6 as amended: when `top_k > 1` the matcher selects each sentence's
`top_k` most similar prototype rows (not distinct factors); each
selected row whose similarity is ≥ `min_similarity` appends the sentence
to that row's factor, so at most `top_k` assignments are made per
sentence, every emitted factor list is non-empty, and each of its
sentences was assigned through some selected prototype row of that
factor with similarity not below the threshold (a sentence may therefore
appear several times in one factor's list, and a qualifying factor can
be crowded out of the selection). -/
theorem matcher_topk_selects_rows (labels : List String) (simRow : String → List ℚ)
    (top_k : Nat) (min_sim : ℚ) (sentences : List String) (htk : 1 < top_k) :
    (∀ t, (selectedIdxs (simRow t) top_k min_sim).length ≤ top_k)
    ∧ ∀ f ss, (f, ss) ∈ matchFactors labels simRow top_k min_sim sentences →
        ss ≠ [] ∧ ∀ t ∈ ss, t ∈ sentences ∧
          ∃ j ∈ selectedIdxs (simRow t) top_k min_sim,
            labels.getD j "" = f ∧ ¬ (simRow t).getD j 0 < min_sim := by
  have hne1 : top_k ≠ 1 := by omega
  constructor
  · intro t
    unfold selectedIdxs
    simp only [if_neg hne1]
    exact le_trans (List.length_filter_le _ _) (by simp [List.length_take])
  · intro f ss hmem
    unfold matchFactors at hmem
    obtain ⟨p, hpfil, hpeq⟩ := List.mem_map.mp hmem
    obtain ⟨hpmap, hpne⟩ := List.mem_filter.mp hpfil
    obtain ⟨lab, _, hlab⟩ := List.mem_map.mp hpmap
    obtain ⟨hf, hss⟩ := Prod.mk.injEq .. ▸ hpeq
    subst hf
    subst hss
    have hfst : p.1 = lab := by rw [← hlab]
    have hscored : p.2 = (sentences.map (fun t =>
        (selectedIdxs (simRow t) top_k min_sim).filterMap
          (fun j => if labels.getD j "" = p.1 then some ((simRow t).getD j 0, t) else none))).flatten := by
      rw [← hlab]
    constructor
    · intro hnil
      have : (sortByKeyDesc Prod.fst p.2).Perm p.2 := sortByKeyDesc_perm _ _
      rw [List.map_eq_nil_iff] at hnil
      have hp2 : p.2 = [] := by
        have hlen : (sortByKeyDesc Prod.fst p.2).length = p.2.length := this.length_eq
        rw [hnil] at hlen
        exact List.eq_nil_of_length_eq_zero hlen.symm
      simp [hp2] at hpne
    · intro t ht
      obtain ⟨pr, hpr, hprt⟩ := List.mem_map.mp ht
      have hpr2 : pr ∈ p.2 := (sortByKeyDesc_perm Prod.fst p.2).mem_iff.mp hpr
      rw [hscored] at hpr2
      obtain ⟨chunk, hchunk, hprc⟩ := List.mem_flatten.mp hpr2
      obtain ⟨t', ht', hteq⟩ := List.mem_map.mp hchunk
      subst hteq
      obtain ⟨j, hj, hcond⟩ := List.mem_filterMap.mp hprc
      by_cases hc : labels.getD j "" = p.1
      · simp only [if_pos hc] at hcond
        have hprval : pr = ((simRow t').getD j 0, t') := (Option.some.injEq .. ▸ hcond.symm)
        have htt : t = t' := by rw [← hprt, hprval]
        subst htt
        refine ⟨ht', j, hj, hc, ?_⟩
        unfold selectedIdxs at hj
        simp only [if_neg hne1] at hj
        have := (List.mem_filter.mp hj).2
        simpa using this
      · rw [if_neg hc] at hcond
        exact absurd hcond (by simp)

/-- Witness for C6's amended theorem at a concrete input
(`top_k = 2`, one prototype row per factor). -/
theorem matcher_topk_witness :
    (∀ t, (selectedIdxs ((fun _ : String => [(9:ℚ)/10]) t) 2 (1/2)).length ≤ 2)
    ∧ ∀ f ss, (f, ss) ∈ matchFactors ["A"] (fun _ => [(9:ℚ)/10]) 2 (1/2) ["s"] →
        ss ≠ [] ∧ ∀ t ∈ ss, t ∈ ["s"] ∧
          ∃ j ∈ selectedIdxs ((fun _ : String => [(9:ℚ)/10]) t) 2 (1/2),
            ["A"].getD j "" = f ∧ ¬ ((fun _ : String => [(9:ℚ)/10]) t).getD j 0 < 1/2 :=
  matcher_topk_selects_rows ["A"] (fun _ => [9/10]) 2 (1/2) ["s"] (by omega)

/-! ## C7: failure propagation through the pipeline -/

/-- A project state whose `refined_sentences.json` exists but maps no
factor, so step 8 writes no SDG-1 evidence file and the scoring step
finds its evidence input missing. -/
def c7FS : ProjectFS :=
  { refined := some []
    evidence_sdg1 := none
    rules_file := some ⟨some [("OUTPUT", ["O1"])]⟩
    scoring_file := some ⟨some ⟨[], [], [], [], defaultGates, 3⟩⟩
    model_sdg1 := true }

/-- C7 counterexample: on `c7FS` the scoring step raises immediately
(`Missing evidence file`), yet the pipeline run still completes
successfully with an empty assessment list — `run_assessments_for_project`
catches the assessor's exception, so the failure does not propagate and
the run is not marked failed. -/
theorem pipeline_swallows_assessor_error :
    runPipelineInferenceOnly c7FS (fun _ => []) = .ok (c7FS, [])
    ∧ assessSdg1 c7FS = .error "Missing evidence file" :=
  ⟨rfl, rfl⟩

/-- C7 as amended: a missing evidence file, rules config or scoring
config makes `assess_sdg1_for_project` raise immediately, but
`run_assessments_for_project` catches every assessor exception and logs
a warning, so whenever `refined_sentences.json` exists the pipeline run
completes successfully (the failed SDG's score is simply absent from the
written results). -/
theorem assessor_raises_but_pipeline_completes :
    (∀ fs : ProjectFS, fs.evidence_sdg1 = none →
        assessSdg1 fs = .error "Missing evidence file")
    ∧ (∀ fs : ProjectFS, fs.evidence_sdg1.isSome = true → fs.rules_file = none →
        assessSdg1 fs = .error "Missing rules config")
    ∧ (∀ fs : ProjectFS, fs.evidence_sdg1.isSome = true → fs.rules_file.isSome = true →
        fs.scoring_file = none → assessSdg1 fs = .error "Missing scoring config")
    ∧ (∀ (fs : ProjectFS) (classify : String → List ℚ),
        fs.refined.isSome = true →
          ∃ out, runPipelineInferenceOnly fs classify = .ok out) := by
  refine ⟨?_, ?_, ?_, ?_⟩
  · intro fs h
    unfold assessSdg1
    rw [h]
  · intro fs h1 h2
    obtain ⟨v, hv⟩ := Option.isSome_iff_exists.mp h1
    unfold assessSdg1
    rw [hv, h2]
  · intro fs h1 h2 h3
    obtain ⟨v, hv⟩ := Option.isSome_iff_exists.mp h1
    obtain ⟨w, hw⟩ := Option.isSome_iff_exists.mp h2
    unfold assessSdg1
    rw [hv, hw, h3]
  · intro fs classify h
    obtain ⟨r, hr⟩ := Option.isSome_iff_exists.mp h
    have hs : ∃ fs', runSdgModels fs classify = .ok fs' := by
      unfold runSdgModels
      rw [hr]
      cases hopt : dictGetOpt r "SDG_1_No_Poverty" with
      | none =>
          simp only [hopt]
          exact ⟨fs, rfl⟩
      | some ss =>
          simp only [hopt]
          by_cases hss : ss = []
          · simp only [if_pos hss]
            exact ⟨_, rfl⟩
          · simp only [if_neg hss]
            by_cases hm : fs.model_sdg1
            · simp only [if_pos hm]
              exact ⟨_, rfl⟩
            · simp only [if_neg hm]
              exact ⟨_, rfl⟩
    obtain ⟨fs', hfs'⟩ := hs
    refine ⟨(fs', runAssessments fs'), ?_⟩
    unfold runPipelineInferenceOnly
    rw [hr, hfs']

/-! ## C9: no duplicate normalized text after refinement -/

/-- The deduped list has pairwise-distinct normalized texts, none of them
in `seen`. -/
theorem dedupeGo_nodup (seen : List String) (l : List String) :
    ((dedupeGo seen l).map normalizeSentence).Nodup
    ∧ ∀ k ∈ (dedupeGo seen l).map normalizeSentence, k ∉ seen := by
  induction l generalizing seen with
  | nil => simp [dedupeGo]
  | cons s rest ih =>
      unfold dedupeGo
      by_cases h : normalizeSentence s ∈ seen
      · simp only [if_pos h]
        exact ih seen
      · simp only [if_neg h, List.map_cons]
        obtain ⟨ihn, ihs⟩ := ih (normalizeSentence s :: seen)
        refine ⟨List.nodup_cons.mpr ⟨?_, ihn⟩, ?_⟩
        · intro hmem
          exact (ihs _ hmem) (List.mem_cons_self _ _)
        · intro k hk
          rcases List.mem_cons.mp hk with hk | hk
          · exact hk ▸ h
          · intro hks
            exact (ihs k hk) (List.mem_cons_of_mem _ hks)

/-- The deduped list is a sublist of the input (first-seen order kept). -/
theorem dedupeGo_sublist (seen : List String) (l : List String) :
    (dedupeGo seen l).Sublist l := by
  induction l generalizing seen with
  | nil => simp [dedupeGo]
  | cons s rest ih =>
      unfold dedupeGo
      by_cases h : normalizeSentence s ∈ seen
      · simp only [if_pos h]
        exact (ih seen).cons s
      · simp only [if_neg h]
        exact (ih _).cons₂ s

/-- Every input sentence's normalized text survives (in `seen` or in the
output). -/
theorem dedupeGo_complete (seen : List String) (l : List String) :
    ∀ s ∈ l, normalizeSentence s ∈ seen ∨
      normalizeSentence s ∈ (dedupeGo seen l).map normalizeSentence := by
  induction l generalizing seen with
  | nil => simp
  | cons a rest ih =>
      intro s hs
      unfold dedupeGo
      by_cases h : normalizeSentence a ∈ seen
      · simp only [if_pos h]
        rcases List.mem_cons.mp hs with hs | hs
        · exact Or.inl (hs ▸ h)
        · exact ih seen s hs
      · simp only [if_neg h, List.map_cons]
        rcases List.mem_cons.mp hs with hs | hs
        · exact Or.inr (hs ▸ List.mem_cons_self _ _)
        · rcases ih (normalizeSentence a :: seen) s hs with hin | hout
          · rcases List.mem_cons.mp hin with heq | hseen
            · exact Or.inr (heq ▸ List.mem_cons_self _ _)
            · exact Or.inl hseen
          · exact Or.inr (List.mem_cons_of_mem _ hout)

/-- C9: every factor list produced by the pipeline's merge-and-dedupe
step (step 6 of `run_pipeline`) has no duplicate normalized sentence
text; it is the text-then-table concatenation with later duplicates
removed, preserving first-seen order (a sublist), and every input
sentence's normalized text is still represented. -/
theorem merged_evidence_nodup (rt rtab : List (String × List String))
    (f : String) (ss : List String)
    (hmem : (f, ss) ∈ mergeRefinedEvidence rt rtab) :
    (ss.map normalizeSentence).Nodup
    ∧ ss.Sublist (dictGet rt f [] ++ dictGet rtab f [])
    ∧ ∀ s ∈ dictGet rt f [] ++ dictGet rtab f [],
        normalizeSentence s ∈ ss.map normalizeSentence := by
  unfold mergeRefinedEvidence at hmem
  obtain ⟨g, _, heq⟩ := List.mem_map.mp hmem
  obtain ⟨hg, hss⟩ := Prod.mk.injEq .. ▸ heq
  subst hg
  subst hss
  refine ⟨(dedupeGo_nodup [] _).1, dedupeGo_sublist [] _, ?_⟩
  intro s hs
  rcases dedupeGo_complete [] _ s hs with hin | hout
  · exact absurd hin (List.not_mem_nil _)
  · exact hout

/-- Witness for C9 at a concrete input: one factor with one text
sentence and no table sentences. -/
theorem merged_evidence_nodup_witness :
    ((["a"] : List String).map normalizeSentence).Nodup :=
  (merged_evidence_nodup [("F", ["a"])] [] "F" ["a"] (by with_unfolding_all decide)).1

/-! ## C1: threshold filter + dedupe -/

/-- The `keepPass` output has pairwise-distinct normalized texts, none of
them in `seen`. -/
theorem keepPass_nodup (thr : ℚ) (items : List EvidenceItem) (seen : List String) :
    ((keepPass thr items seen).map (fun it => normalizeSentence it.sentence)).Nodup
    ∧ ∀ k ∈ (keepPass thr items seen).map (fun it => normalizeSentence it.sentence),
        k ∉ seen := by
  induction items generalizing seen with
  | nil => simp [keepPass]
  | cons a rest ih =>
      unfold keepPass
      by_cases hthr : a.probability < thr
      · simp only [if_pos hthr]
        exact ih seen
      · simp only [if_neg hthr]
        by_cases hbad : normalizeSentence a.sentence = "" ∨ normalizeSentence a.sentence ∈ seen
        · simp only [if_pos hbad]
          exact ih seen
        · simp only [if_neg hbad, List.map_cons]
          obtain ⟨ihn, ihs⟩ := ih (normalizeSentence a.sentence :: seen)
          refine ⟨List.nodup_cons.mpr ⟨?_, ihn⟩, ?_⟩
          · intro hmem
            exact (ihs _ hmem) (List.mem_cons_self _ _)
          · intro k hk
            rcases List.mem_cons.mp hk with hk | hk
            · intro hks
              exact hbad (Or.inr (hk ▸ hks))
            · intro hks
              exact (ihs k hk) (List.mem_cons_of_mem _ hks)

/-- Every kept entry is the first occurrence, in input order, of its
normalized sentence among the items passing the threshold (and its
stored probability is the source probability rounded to 4 decimals). -/
theorem keepPass_first_occurrence (thr : ℚ) (items : List EvidenceItem) (seen : List String) :
    ∀ it ∈ keepPass thr items seen, ∃ pre x post, items = pre ++ x :: post
      ∧ ¬ x.probability < thr
      ∧ normalizeSentence x.sentence ≠ ""
      ∧ normalizeSentence x.sentence ∉ seen
      ∧ it = ⟨x.sentence, round4 x.probability⟩
      ∧ ∀ y ∈ pre, normalizeSentence y.sentence = normalizeSentence x.sentence →
          y.probability < thr := by
  induction items generalizing seen with
  | nil => simp [keepPass]
  | cons a rest ih =>
      intro it hit
      unfold keepPass at hit
      by_cases hthr : a.probability < thr
      · rw [if_pos hthr] at hit
        obtain ⟨pre, x, post, hsplit, hx1, hx2, hx3, hx4, hx5⟩ := ih seen it hit
        refine ⟨a :: pre, x, post, by rw [hsplit]; rfl, hx1, hx2, hx3, hx4, ?_⟩
        intro y hy hkey
        rcases List.mem_cons.mp hy with hy | hy
        · exact hy ▸ hthr
        · exact hx5 y hy hkey
      · rw [if_neg hthr] at hit
        by_cases hbad : normalizeSentence a.sentence = "" ∨ normalizeSentence a.sentence ∈ seen
        · rw [if_pos hbad] at hit
          obtain ⟨pre, x, post, hsplit, hx1, hx2, hx3, hx4, hx5⟩ := ih seen it hit
          refine ⟨a :: pre, x, post, by rw [hsplit]; rfl, hx1, hx2, hx3, hx4, ?_⟩
          intro y hy hkey
          rcases List.mem_cons.mp hy with hy | hy
          · subst hy
            rcases hbad with hbad | hbad
            · exact absurd (hkey ▸ hbad) hx2
            · exact absurd (hkey ▸ hbad) hx3
          · exact hx5 y hy hkey
        · rw [if_neg hbad] at hit
          rcases List.mem_cons.mp hit with hit | hit
          · push_neg at hbad
            exact ⟨[], a, rest, rfl, hthr, hbad.1, hbad.2, hit, by simp⟩
          · obtain ⟨pre, x, post, hsplit, hx1, hx2, hx3, hx4, hx5⟩ :=
              ih (normalizeSentence a.sentence :: seen) it hit
            have hx3' : normalizeSentence x.sentence ∉ seen :=
              fun hs => hx3 (List.mem_cons_of_mem _ hs)
            have hxa : normalizeSentence x.sentence ≠ normalizeSentence a.sentence :=
              fun hs => hx3 (hs ▸ List.mem_cons_self _ _)
            refine ⟨a :: pre, x, post, by rw [hsplit]; rfl, hx1, hx2, hx3', hx4, ?_⟩
            intro y hy hkey
            rcases List.mem_cons.mp hy with hy | hy
            · exact absurd (hy ▸ hkey) (fun h => hxa h.symm)
            · exact hx5 y hy hkey

/-- Every item passing the threshold with a non-empty normalized text is
represented in the kept list's normalized texts. -/
theorem keepPass_complete (thr : ℚ) (items : List EvidenceItem) (seen : List String) :
    ∀ x ∈ items, ¬ x.probability < thr → normalizeSentence x.sentence ≠ "" →
      normalizeSentence x.sentence ∈ seen ∨
        normalizeSentence x.sentence ∈
          (keepPass thr items seen).map (fun it => normalizeSentence it.sentence) := by
  induction items generalizing seen with
  | nil => simp
  | cons a rest ih =>
      intro x hx hxthr hxkey
      unfold keepPass
      by_cases hthr : a.probability < thr
      · rw [if_pos hthr]
        rcases List.mem_cons.mp hx with hx | hx
        · exact absurd (hx ▸ hthr) hxthr
        · exact ih seen x hx hxthr hxkey
      · rw [if_neg hthr]
        by_cases hbad : normalizeSentence a.sentence = "" ∨ normalizeSentence a.sentence ∈ seen
        · rw [if_pos hbad]
          rcases List.mem_cons.mp hx with hx | hx
          · subst hx
            rcases hbad with hbad | hbad
            · exact absurd hbad hxkey
            · exact Or.inl hbad
          · exact ih seen x hx hxthr hxkey
        · rw [if_neg hbad]
          rcases List.mem_cons.mp hx with hx | hx
          · subst hx
            exact Or.inr (by simp)
          · rcases ih (normalizeSentence a.sentence :: seen) x hx hxthr hxkey with hin | hout
            · rcases List.mem_cons.mp hin with heq | hseen
              · exact Or.inr (by simp [heq])
              · exact Or.inl hseen
            · exact Or.inr (List.mem_cons_of_mem _ hout)

/-- C1 counterexample: with both items above the 0.6 OUTPUT threshold
and identical normalized sentence text (`"A B"` vs `"a  b"`), the filter
retains the FIRST occurrence (probability 0.7), not the
highest-probability one (0.9). -/
theorem filter_dedupe_counterexample :
    (filterUniqueRuleEvidence [("O1", "OUTPUT")] [("OUTPUT", 3/5)]
        [("O1", [⟨"A B", 7/10⟩, ⟨"a  b", 9/10⟩])]).filtered
      = [("O1", [⟨"A B", 7/10⟩])]
    ∧ normalizeSentence "A B" = normalizeSentence "a  b"
    ∧ ¬ (7:ℚ)/10 < 3/5
    ∧ ¬ (9:ℚ)/10 < 3/5
    ∧ (7:ℚ)/10 < 9/10 := by
  with_unfolding_all decide

/-- C1 as amended: in the threshold-filter-and-dedupe stage, coincident
normalized texts collapse to exactly one retained entry per rule, but
among the threshold-passing occurrences the retained entry is the FIRST
one in input order (stored with its probability rounded to 4 decimals),
not the highest-probability one; the survivors are then sorted
descending by probability. -/
theorem filter_dedupe_keeps_first_passer (rtl : List (String × String))
    (th : List (String × ℚ)) (sr : List (String × List EvidenceItem))
    (rule : String) (kept : List EvidenceItem)
    (hmem : (rule, kept) ∈ (filterUniqueRuleEvidence rtl th sr).filtered) :
    ∃ items level, (rule, items) ∈ sr ∧ dictGetOpt rtl rule = some level
      ∧ kept = sortByKeyDesc EvidenceItem.probability
          (keepPass (dictGet th level 0) items [])
      ∧ (kept.map (fun it => normalizeSentence it.sentence)).Nodup
      ∧ kept.Sorted (fun a b => b.probability ≤ a.probability)
      ∧ (∀ it ∈ kept, ∃ pre x post, items = pre ++ x :: post
          ∧ ¬ x.probability < dictGet th level 0
          ∧ normalizeSentence x.sentence ≠ ""
          ∧ it = ⟨x.sentence, round4 x.probability⟩
          ∧ ∀ y ∈ pre, normalizeSentence y.sentence = normalizeSentence x.sentence →
              y.probability < dictGet th level 0)
      ∧ (∀ x ∈ items, ¬ x.probability < dictGet th level 0 →
          normalizeSentence x.sentence ≠ "" →
          normalizeSentence x.sentence ∈
            kept.map (fun it => normalizeSentence it.sentence)) := by
  induction sr with
  | nil => simp [filterUniqueRuleEvidence] at hmem
  | cons hd rest ih =>
      obtain ⟨r0, items0⟩ := hd
      rw [filterUniqueRuleEvidence] at hmem
      cases hlev : dictGetOpt rtl r0 with
      | none =>
          simp only [hlev] at hmem
          obtain ⟨items, level, h1, h⟩ := ih hmem
          exact ⟨items, level, List.mem_cons_of_mem _ h1, h⟩
      | some level0 =>
          simp only [hlev] at hmem
          by_cases hin : level0 ∈ ["OUTPUT", "OUTCOME", "IMPACT"]
          · rw [if_pos hin] at hmem
            by_cases hkept : keepPass (dictGet th level0 0) items0 [] = []
            · rw [if_pos hkept] at hmem
              obtain ⟨items, level, h1, h⟩ := ih hmem
              exact ⟨items, level, List.mem_cons_of_mem _ h1, h⟩
            · rw [if_neg hkept] at hmem
              rcases List.mem_cons.mp hmem with hmem | hmem
              · obtain ⟨hr, hk⟩ := Prod.mk.injEq .. ▸ hmem
                subst hr
                subst hk
                have hperm := sortByKeyDesc_perm EvidenceItem.probability
                  (keepPass (dictGet th level0 0) items0 [])
                refine ⟨items0, level0, List.mem_cons_self _ _, hlev, rfl, ?_, ?_, ?_, ?_⟩
                · exact ((hperm.map _).nodup_iff).mpr (keepPass_nodup _ items0 []).1
                · exact sortByKeyDesc_sorted _ _
                · intro it hit
                  have hit' := hperm.mem_iff.mp hit
                  obtain ⟨pre, x, post, h1, h2, h3, _, h5, h6⟩ :=
                    keepPass_first_occurrence _ items0 [] it hit'
                  exact ⟨pre, x, post, h1, h2, h3, h5, h6⟩
                · intro x hx hxthr hxkey
                  rcases keepPass_complete _ items0 [] x hx hxthr hxkey with hin' | hout
                  · exact absurd hin' (List.not_mem_nil _)
                  · exact ((hperm.map _).mem_iff).mpr hout
              · obtain ⟨items, level, h1, h⟩ := ih hmem
                exact ⟨items, level, List.mem_cons_of_mem _ h1, h⟩
          · rw [if_neg hin] at hmem
            obtain ⟨items, level, h1, h⟩ := ih hmem
            exact ⟨items, level, List.mem_cons_of_mem _ h1, h⟩

/-- Witness for C1's amended theorem at a concrete input. -/
theorem filter_dedupe_witness :
    ∃ items level, ("O1", items) ∈ [("O1", [(⟨"w", (1:ℚ)/2⟩ : EvidenceItem)])]
      ∧ dictGetOpt [("O1", "OUTPUT")] "O1" = some level
      ∧ [(⟨"w", (1:ℚ)/2⟩ : EvidenceItem)] = sortByKeyDesc EvidenceItem.probability
          (keepPass (dictGet [("OUTPUT", (0:ℚ))] level 0) items []) := by
  obtain ⟨items, level, h1, h2, h3, _⟩ :=
    filter_dedupe_keeps_first_passer [("O1", "OUTPUT")] [("OUTPUT", 0)]
      [("O1", [⟨"w", 1/2⟩])] "O1" [⟨"w", 1/2⟩] (by with_unfolding_all decide)
  exact ⟨items, level, h1, h2, h3⟩

end CCEval
